import Mathlib

/-!
Verification development for the DBSCAN clustering engine of this repository
(`src/eda/model/model.py`, class `DBSCAN`).

The source operates on numpy arrays of real-valued coordinates.  The
development is polymorphic over a linear ordered commutative ring `K` of
coordinates (`ℝ`, `ℚ` and `ℤ` are instances); general theorems are proved for
every such `K`, and concrete runs are evaluated at `K := ℤ` (integer-valued
points are ordinary inputs of the program).

A point (`for p in X` iterates the rows of `X`) is a `List K`.  The source
keys its `_labels` dictionary by `hash(key.data.tobytes())`: two equal-valued
rows have equal byte strings, hence equal keys, and distinct values give
distinct byte strings; the key is therefore modelled as the row's value
itself, and the dictionary as an association list that is only extended when
the key is absent (exactly how the source writes it).
-/

namespace DBSCAN

variable {K : Type} [LinearOrderedCommRing K]

/-- The value the source assigns to points that fit in no cluster
(`self.noise_label = -1` in `__init__`). -/
def noise_label : ℤ := -1

/-- The state of one `DBSCAN` estimator object.  `eps`, `min_samples` and `p`
are the constructor arguments; `labels` is the `_labels` dictionary;
`is_fit`, `n_clusters_`, `labels_` and `silhouette_` are the attributes
written by `fit` (they do not exist before `fit` in the source; here they hold
placeholder values that `is_fit = false` marks as meaningless). -/
structure Model (K : Type) where
  eps : K
  min_samples : ℕ
  p : ℕ
  labels : List (List K × ℤ)
  is_fit : Bool
  n_clusters_ : ℤ
  labels_ : List (Option ℤ)
  silhouette_ : Option K

/-- `DBSCAN.__init__`: stores the configuration and starts with an empty
`_labels` dictionary and `is_fit = False`. -/
def mkModel (eps : K) (min_samples : ℕ) (p : ℕ) : Model K :=
  { eps := eps, min_samples := min_samples, p := p,
    labels := [], is_fit := false,
    n_clusters_ := 0, labels_ := [], silhouette_ := none }

/-- Looking a point's key up in the `_labels` dictionary
(`self._labels[self._k(q)]` / `self._k(q) in self._labels`). -/
def lookupLabel : List (List K × ℤ) → List K → Option ℤ
  | [], _ => none
  | e :: rest, q => if e.1 = q then some e.2 else lookupLabel rest q

/-- The sum inside `_metric`: `np.sum(np.abs((x1-x2)**p))`.  Note the source
takes the absolute value after raising to the power `p`. -/
def sumAbsPow (x1 x2 : List K) (p : ℕ) : K :=
  ((x1.zip x2).map (fun ab => |(ab.1 - ab.2) ^ p|)).sum

/-- One entry of the boolean mask `self._metric(X, q, self.p) < self.eps`.
The source compares the order-`p` metric `(Σ|Δ^p|)^(1/p)` with `eps`; since
the `p`-th root is not available in a ring, the test is embedded root-free as
`0 < eps ∧ Σ|Δ^p| < eps^p`, which theorem `metric_lt_iff` proves equal to the
source's comparison for every `p ≥ 1` (the metric is nonnegative, so for
`eps ≤ 0` the source's test is also always false). -/
def isNeighbor (eps : K) (p : ℕ) (x1 x2 : List K) : Bool :=
  decide (0 < eps) && decide (sumAbsPow x1 x2 p < eps ^ p)

/-- The boolean neighbor mask `self._metric(X, q, self.p) < self.eps`:
one bit per row of `X`. -/
def maskOf (eps : K) (p : ℕ) (X : List (List K)) (q : List K) : List Bool :=
  X.map (fun x => isNeighbor eps p x q)

/-- Boolean-mask row selection `X[mask]` (rows kept in index order). -/
def select (X : List (List K)) (mask : List Bool) : List (List K) :=
  ((X.zip mask).filter (fun pm => pm.2)).map (fun pm => pm.1)

/-- Pointwise `|=` on boolean masks. -/
def orMask : List Bool → List Bool → List Bool :=
  List.zipWith or

/-- The body of `for q in X[neighbors]` inside the expansion loop:

    if self._k(q) not in self._labels or self._k(q) == -1:
        self._labels[self._k(q)] = cluster
        new_neighbors |= self._metric(X, q, self.p) < self.eps

The second disjunct of the source's condition compares the dictionary *key*
`self._k(q)` — a `hash(...)` value, which CPython never returns as `-1` — with
`-1`; it is therefore always false and the embedded condition is just
`self._k(q) not in self._labels`.  (The evidently intended test
`self._labels[self._k(q)] == -1` is the divergence reported for claim C2.)
The accumulator is the pair (`_labels` dictionary, `new_neighbors` mask). -/
def passStep (eps : K) (p : ℕ) (X : List (List K)) (cluster : ℤ)
    (acc : List (List K × ℤ) × List Bool) (q : List K) :
    List (List K × ℤ) × List Bool :=
  if (lookupLabel acc.1 q).isNone then
    ((q, cluster) :: acc.1, orMask acc.2 (maskOf eps p X q))
  else acc

/-- One iteration of the `while X[neighbors].shape[0] > 0` loop:
`new_neighbors` starts as `np.repeat(False, neighbors.shape)` and the loop
body `passStep` runs over `X[neighbors]`. -/
def expandPass (eps : K) (p : ℕ) (X : List (List K)) (cluster : ℤ)
    (labels : List (List K × ℤ)) (frontierPts : List (List K)) :
    List (List K × ℤ) × List Bool :=
  frontierPts.foldl (passStep eps p X cluster)
    (labels, List.replicate X.length false)

/-- The `while X[neighbors].shape[0] > 0` loop.  The recursion is on an
explicit fuel; `fit` runs it with fuel `X.length + 2`, which theorem
`fit_expansion_terminates` proves sufficient (each pass either labels a
previously unlabeled point or returns an all-false mask, after which the
loop exits). -/
def expandLoop (eps : K) (p : ℕ) (X : List (List K)) (cluster : ℤ) :
    ℕ → List (List K × ℤ) → List Bool → List (List K × ℤ)
  | 0, labels, _ => labels
  | fuel + 1, labels, frontier =>
    if 0 < (select X frontier).length then
      let r := expandPass eps p X cluster labels (select X frontier)
      expandLoop eps p X cluster fuel r.1 r.2
    else labels

/-- The `for p in X` scan of `fit`: skip already-keyed points; otherwise
compute the neighbor mask; if at least `min_samples` rows are selected, start
cluster `cluster + 1` at this point and expand it, else record the point as
noise.  The accumulator is the pair (`cluster` counter, `_labels`
dictionary). -/
def fitLoop (eps : K) (p : ℕ) (min_samples : ℕ) (X : List (List K)) :
    List (List K) → ℤ × List (List K × ℤ) → ℤ × List (List K × ℤ)
  | [], acc => acc
  | q :: rest, (cluster, labels) =>
    if (lookupLabel labels q).isSome then
      fitLoop eps p min_samples X rest (cluster, labels)
    else
      let nbrs := maskOf eps p X q
      if min_samples ≤ (select X nbrs).length then
        fitLoop eps p min_samples X rest
          (cluster + 1,
           expandLoop eps p X (cluster + 1) (X.length + 2)
             ((q, cluster + 1) :: labels) nbrs)
      else
        fitLoop eps p min_samples X rest (cluster, (q, noise_label) :: labels)

/-- The distinct non-noise cluster labels among the per-row labels (`none`
marks a row whose key is absent from the dictionary, which never happens for
fitted rows). -/
def distinctNonNoise (ls : List (Option ℤ)) : List ℤ :=
  ((ls.filterMap id).filter (fun v => decide (v ≠ noise_label))).dedup

/-- Modelled from the spec: the quality scorer (`silhouette_score`, an
external statistics library) is consumed, not implemented, by this
repository.  Per spec §4.5 its score is "defined only when ≥ 2 distinct label
values exist among non-noise points", and the engine must report a failure as
NaN; `fit` wraps the call in `try/except ValueError` and stores `np.nan` on
failure.  NaN is modelled as `none`.  The spec fixes only definedness and the
range of the defined value, not the value itself, so the defined branch
returns the representative `some 0`; no claim depends on the defined value. -/
def silhouetteModel (ls : List (Option ℤ)) : Option K :=
  if 2 ≤ (distinctNonNoise ls).length then some 0 else none

/-- `DBSCAN.fit`: runs the scan starting from `cluster = -1` and from the
estimator's current `_labels` dictionary (the source never resets the
dictionary — see claims C3 and C5), then sets `is_fit`, `n_clusters_ =
cluster + 1`, `labels_ = self.predict(X)` (a per-row dictionary lookup, which
cannot fail on fitted rows) and the silhouette score. -/
def fit (m : Model K) (X : List (List K)) : Model K :=
  let r := fitLoop m.eps m.p m.min_samples X X (-1, m.labels)
  let ls := X.map (lookupLabel r.2)
  { m with
    labels := r.2, is_fit := true, n_clusters_ := r.1 + 1,
    labels_ := ls, silhouette_ := silhouetteModel ls }

/-- The failures of `predict`/`score`: `NotFittedError`, and the `KeyError`
raised when a queried point is not a key of `_labels` (the spec's
`UnknownPoint`). -/
inductive Err
  | NotFitted
  | UnknownPoint
  deriving DecidableEq

/-- The list comprehension `[self._labels[self._k(p)] for p in np.array(X)]`:
one label per input row in input order, failing at the first row whose key is
absent. -/
def predictList : List (List K × ℤ) → List (List K) → Except Err (List ℤ)
  | _, [] => .ok []
  | labels, q :: rest =>
    match lookupLabel labels q with
    | none => .error .UnknownPoint
    | some v =>
      match predictList labels rest with
      | .ok ls => .ok (v :: ls)
      | .error e => .error e

/-- `DBSCAN.predict`: `_check_fit` then the per-row lookup. -/
def predict (m : Model K) (X : List (List K)) : Except Err (List ℤ) :=
  if m.is_fit then predictList m.labels X else .error .NotFitted

/-- `DBSCAN.score`: `_check_fit` then return the stored `silhouette_`. -/
def score (m : Model K) : Except Err (Option K) :=
  if m.is_fit then .ok m.silhouette_ else .error .NotFitted

/-- `fit_predict` (inherited from `ClusterMixin`): `self.fit(X)` then return
`self.labels_`. -/
def fit_predict (m : Model K) (X : List (List K)) : List (Option ℤ) :=
  (fit m X).labels_

/-- The order-`p` metric of `_metric`, stated over `ℝ` where the `1/p`-th
power exists: `(np.sum(np.abs((x1-x2)**p)))**(1/p)`. -/
noncomputable def metric (x1 x2 : List ℝ) (p : ℕ) : ℝ :=
  (sumAbsPow x1 x2 p) ^ ((1 : ℝ) / (p : ℝ))

/-- The number of distinct row values of `X` not yet keyed in the
dictionary; the termination measure of the expansion loop. -/
def unlabeledCount (X : List (List K)) (l : List (List K × ℤ)) : ℕ :=
  (X.toFinset.filter (fun q => lookupLabel l q = none)).card

/-- Every label value stored in the dictionary is `-1` or lies in `[0, c]`. -/
def LabelsOk (c : ℤ) (l : List (List K × ℤ)) : Prop :=
  ∀ pr ∈ l, pr.2 = -1 ∨ (0 ≤ pr.2 ∧ pr.2 ≤ c)

/-! Helper lemmas about masks, selection and the label dictionary. -/

lemma length_maskOf (eps : K) (p : ℕ) (X : List (List K)) (q : List K) :
    (maskOf eps p X q).length = X.length :=
  List.length_map _ _

lemma length_orMask (a b : List Bool) :
    (orMask a b).length = min a.length b.length :=
  List.length_zipWith _ _ _

lemma getD_orMask (a : List Bool) :
    ∀ (b : List Bool) (j : ℕ), a.length = b.length →
      (orMask a b).getD j false = ((a.getD j false) || (b.getD j false)) := by
  induction a with
  | nil =>
    intro b j hab
    cases b with
    | nil => simp [orMask]
    | cons y ys => simp at hab
  | cons x xs ih =>
    intro b j hab
    cases b with
    | nil => simp at hab
    | cons y ys =>
      cases j with
      | zero => simp [orMask]
      | succ n =>
        have := ih ys n (by simpa using hab)
        simpa [orMask] using this

lemma maskOf_getD_true_lt (eps : K) (p : ℕ) (X : List (List K)) (q : List K)
    (j : ℕ) (h : (maskOf eps p X q).getD j false = true) : j < X.length := by
  by_contra hj
  rw [List.getD_eq_default] at h
  · cases h
  · rw [length_maskOf]; omega

lemma mem_of_mem_select {X : List (List K)} {mask : List Bool} {x : List K}
    (h : x ∈ select X mask) : x ∈ X := by
  simp only [select, List.mem_map, List.mem_filter] at h
  obtain ⟨⟨a, b⟩, ⟨hz, _⟩, rfl⟩ := h
  exact (List.of_mem_zip hz).1

lemma select_replicate_false (X : List (List K)) :
    ∀ n : ℕ, select X (List.replicate n false) = [] := by
  induction X with
  | nil => intro n; simp [select]
  | cons x xs ih =>
    intro n
    cases n with
    | zero => simp [select]
    | succ m =>
      have := ih m
      simpa [select, List.replicate_succ] using this

lemma lookupLabel_cons_self (l : List (List K × ℤ)) (q : List K) (v : ℤ) :
    lookupLabel ((q, v) :: l) q = some v := by
  simp [lookupLabel]

lemma lookupLabel_cons_ne (l : List (List K × ℤ)) (e : List K × ℤ)
    (q : List K) (h : ¬ e.1 = q) :
    lookupLabel (e :: l) q = lookupLabel l q := by
  simp [lookupLabel, h]

lemma lookupLabel_mem {l : List (List K × ℤ)} {q : List K} {v : ℤ}
    (h : lookupLabel l q = some v) : (q, v) ∈ l := by
  induction l with
  | nil => simp [lookupLabel] at h
  | cons e rest ih =>
    by_cases he : e.1 = q
    · rw [lookupLabel, if_pos he] at h
      have h2 : e = (q, v) := by
        obtain ⟨e1, e2⟩ := e
        simp only at he
        simp only [Option.some.injEq] at h
        simp [he, h]
      rw [← h2]
      exact List.mem_cons_self _ _
    · rw [lookupLabel, if_neg he] at h
      exact List.mem_cons_of_mem _ (ih h)

/-! Lemmas about one pass of the expansion loop (`expandPass`, a fold of
`passStep` over the selected frontier rows). -/

lemma foldl_passStep_labels_mono (eps : K) (p : ℕ) (X : List (List K)) (c : ℤ)
    (L : List (List K)) :
    ∀ (acc : List (List K × ℤ) × List Bool) (q : List K) (v : ℤ),
      lookupLabel acc.1 q = some v →
      lookupLabel (L.foldl (passStep eps p X c) acc).1 q = some v := by
  induction L with
  | nil => intro acc q v h; simpa using h
  | cons h t ih =>
    intro acc q v hq
    rw [List.foldl_cons]
    apply ih
    cases hn : lookupLabel acc.1 h with
    | none =>
      have hne : ¬ h = q := by
        intro e; rw [e, hq] at hn; cases hn
      simp only [passStep, hn, Option.isNone_none, if_true]
      rw [lookupLabel_cons_ne _ _ _ (by simpa using hne)]
      exact hq
    | some w =>
      simp only [passStep, hn, Option.isNone_some, Bool.false_eq_true, if_false]
      exact hq

lemma foldl_passStep_mask_length (eps : K) (p : ℕ) (X : List (List K)) (c : ℤ)
    (L : List (List K)) :
    ∀ (acc : List (List K × ℤ) × List Bool), acc.2.length = X.length →
      (L.foldl (passStep eps p X c) acc).2.length = X.length := by
  induction L with
  | nil => intro acc h; simpa using h
  | cons h t ih =>
    intro acc hacc
    rw [List.foldl_cons]
    apply ih
    cases hn : lookupLabel acc.1 h with
    | none =>
      simp only [passStep, hn, Option.isNone_none, if_true]
      rw [length_orMask, hacc, length_maskOf]
      simp
    | some w =>
      simpa [passStep, hn] using hacc

lemma foldl_passStep_mask_mono (eps : K) (p : ℕ) (X : List (List K)) (c : ℤ)
    (L : List (List K)) :
    ∀ (acc : List (List K × ℤ) × List Bool) (j : ℕ), acc.2.length = X.length →
      acc.2.getD j false = true →
      (L.foldl (passStep eps p X c) acc).2.getD j false = true := by
  induction L with
  | nil => intro acc j _ h; simpa using h
  | cons h t ih =>
    intro acc j hlen hj
    rw [List.foldl_cons]
    cases hn : lookupLabel acc.1 h with
    | none =>
      simp only [passStep, hn, Option.isNone_none, if_true]
      apply ih _ j
      · rw [length_orMask, hlen, length_maskOf]; simp
      · rw [getD_orMask _ _ j (by rw [hlen, length_maskOf]), hj]
        simp
    | some w =>
      simp only [passStep, hn, Option.isNone_some, Bool.false_eq_true, if_false]
      exact ih acc j hlen hj

lemma foldl_passStep_labels_length (eps : K) (p : ℕ) (X : List (List K)) (c : ℤ)
    (L : List (List K)) :
    ∀ (acc : List (List K × ℤ) × List Bool),
      acc.1.length ≤ (L.foldl (passStep eps p X c) acc).1.length := by
  induction L with
  | nil => intro acc; simp
  | cons h t ih =>
    intro acc
    rw [List.foldl_cons]
    cases hn : lookupLabel acc.1 h with
    | none =>
      have := ih (passStep eps p X c acc h)
      simp only [passStep, hn, Option.isNone_none, if_true] at this ⊢
      calc acc.1.length ≤ acc.1.length + 1 := by omega
        _ = (((h, c) :: acc.1 : List (List K × ℤ))).length := by simp
        _ ≤ _ := this
    | some w =>
      have := ih acc
      simpa [passStep, hn] using this

lemma foldl_passStep_stuck (eps : K) (p : ℕ) (X : List (List K)) (c : ℤ)
    (L : List (List K)) :
    ∀ (acc : List (List K × ℤ) × List Bool),
      (L.foldl (passStep eps p X c) acc).1.length = acc.1.length →
      L.foldl (passStep eps p X c) acc = acc := by
  induction L with
  | nil => intro acc _; rfl
  | cons h t ih =>
    intro acc hlen
    rw [List.foldl_cons] at hlen ⊢
    cases hn : lookupLabel acc.1 h with
    | none =>
      exfalso
      have hgrow := foldl_passStep_labels_length eps p X c t (passStep eps p X c acc h)
      simp only [passStep, hn, Option.isNone_none, if_true] at hgrow hlen
      simp only [List.length_cons] at hgrow
      omega
    | some w =>
      have hacc : passStep eps p X c acc h = acc := by
        simp [passStep, hn]
      rw [hacc] at hlen ⊢
      exact ih acc hlen

lemma foldl_passStep_progress (eps : K) (p : ℕ) (X : List (List K)) (c : ℤ)
    (L : List (List K)) :
    ∀ (acc : List (List K × ℤ) × List Bool),
      (L.foldl (passStep eps p X c) acc).1 = acc.1 ∨
      ∃ q ∈ L, lookupLabel acc.1 q = none ∧
        (lookupLabel (L.foldl (passStep eps p X c) acc).1 q).isSome := by
  induction L with
  | nil => intro acc; left; rfl
  | cons h t ih =>
    intro acc
    rw [List.foldl_cons]
    cases hn : lookupLabel acc.1 h with
    | none =>
      right
      refine ⟨h, List.mem_cons_self _ _, hn, ?_⟩
      have hcons : lookupLabel (passStep eps p X c acc h).1 h = some c := by
        simp only [passStep, hn, Option.isNone_none, if_true]
        exact lookupLabel_cons_self _ _ _
      have hsome := foldl_passStep_labels_mono eps p X c t
        (passStep eps p X c acc h) h c hcons
      rw [hsome]
      rfl
    | some w =>
      have hacc : passStep eps p X c acc h = acc := by
        simp [passStep, hn]
      rw [hacc]
      rcases ih acc with hl | ⟨q, hqt, h1, h2⟩
      · left; exact hl
      · right; exact ⟨q, List.mem_cons_of_mem _ hqt, h1, h2⟩

lemma foldl_passStep_new_label (eps : K) (p : ℕ) (X : List (List K)) (c : ℤ)
    (L : List (List K)) :
    ∀ (acc : List (List K × ℤ) × List Bool) (q : List K), q ∈ L →
      lookupLabel acc.1 q = none → acc.2.length = X.length →
      lookupLabel (L.foldl (passStep eps p X c) acc).1 q = some c ∧
      ∀ j, (maskOf eps p X q).getD j false = true →
        (L.foldl (passStep eps p X c) acc).2.getD j false = true := by
  induction L with
  | nil => intro acc q hq; cases hq
  | cons h t ih =>
    intro acc q hqL hq hlen
    rw [List.foldl_cons]
    by_cases hhq : h = q
    · subst hhq
      have hstep : passStep eps p X c acc h =
          ((h, c) :: acc.1, orMask acc.2 (maskOf eps p X h)) := by
        simp [passStep, hq]
      rw [hstep]
      constructor
      · exact foldl_passStep_labels_mono eps p X c t _ h c
          (lookupLabel_cons_self _ _ _)
      · intro j hj
        have hjlt : j < X.length := maskOf_getD_true_lt eps p X h j hj
        apply foldl_passStep_mask_mono eps p X c t _ j
        · show (orMask acc.2 (maskOf eps p X h)).length = X.length
          rw [length_orMask, hlen, length_maskOf]; simp
        · show (orMask acc.2 (maskOf eps p X h)).getD j false = true
          rw [getD_orMask _ _ j (by rw [hlen, length_maskOf]), hj]
          simp
    · have hqt : q ∈ t := by
        rcases List.mem_cons.mp hqL with he | ht
        · exact absurd he.symm hhq
        · exact ht
      cases hn : lookupLabel acc.1 h with
      | none =>
        have hstep : passStep eps p X c acc h =
            ((h, c) :: acc.1, orMask acc.2 (maskOf eps p X h)) := by
          simp [passStep, hn]
        rw [hstep]
        apply ih _ q hqt
        · rw [lookupLabel_cons_ne _ _ _ (by simpa using hhq)]
          exact hq
        · rw [length_orMask, hlen, length_maskOf]; simp
      | some w =>
        have hacc : passStep eps p X c acc h = acc := by
          simp [passStep, hn]
        rw [hacc]
        exact ih acc q hqt hq hlen

/-! Termination measure for the expansion loop: the number of distinct rows
of `X` whose key is absent from the `_labels` dictionary. -/

lemma unlabeledCount_le_length (X : List (List K)) (l : List (List K × ℤ)) :
    unlabeledCount X l ≤ X.length :=
  le_trans (Finset.card_filter_le _ _) X.toFinset_card_le

lemma unlabeledCount_mono {X : List (List K)} {l l' : List (List K × ℤ)}
    (h : ∀ q v, lookupLabel l q = some v → lookupLabel l' q = some v) :
    unlabeledCount X l' ≤ unlabeledCount X l := by
  apply Finset.card_le_card
  intro q hq
  simp only [Finset.mem_filter] at hq ⊢
  refine ⟨hq.1, ?_⟩
  cases hl : lookupLabel l q with
  | none => rfl
  | some v => rw [h q v hl] at hq; cases hq.2

lemma unlabeledCount_lt {X : List (List K)} {l l' : List (List K × ℤ)}
    (hmono : ∀ q v, lookupLabel l q = some v → lookupLabel l' q = some v)
    {q : List K} (hqX : q ∈ X) (hnone : lookupLabel l q = none)
    (hsome : (lookupLabel l' q).isSome) :
    unlabeledCount X l' < unlabeledCount X l := by
  apply Finset.card_lt_card
  rw [Finset.ssubset_iff_of_subset]
  · refine ⟨q, ?_, ?_⟩
    · simp only [Finset.mem_filter, List.mem_toFinset]
      exact ⟨hqX, hnone⟩
    · simp only [Finset.mem_filter, List.mem_toFinset, not_and]
      intro _
      intro hcon
      rw [hcon] at hsome
      cases hsome
  · intro x hx
    simp only [Finset.mem_filter] at hx ⊢
    refine ⟨hx.1, ?_⟩
    cases hl : lookupLabel l x with
    | none => rfl
    | some v => rw [hmono x v hl] at hx; cases hx.2

/-! Lemmas about the expansion loop. -/

lemma expandPass_labels_mono (eps : K) (p : ℕ) (X : List (List K)) (c : ℤ)
    (labels : List (List K × ℤ)) (F : List (List K)) (q : List K) (v : ℤ)
    (h : lookupLabel labels q = some v) :
    lookupLabel (expandPass eps p X c labels F).1 q = some v :=
  foldl_passStep_labels_mono eps p X c F _ q v h

lemma expandLoop_labels_mono (eps : K) (p : ℕ) (X : List (List K)) (c : ℤ) :
    ∀ (fuel : ℕ) (labels : List (List K × ℤ)) (F : List Bool) (q : List K) (v : ℤ),
      lookupLabel labels q = some v →
      lookupLabel (expandLoop eps p X c fuel labels F) q = some v := by
  intro fuel
  induction fuel with
  | zero => intro labels F q v h; simpa [expandLoop] using h
  | succ n ih =>
    intro labels F q v h
    rw [expandLoop]
    by_cases hs : 0 < (select X F).length
    · rw [if_pos hs]
      exact ih _ _ q v (expandPass_labels_mono eps p X c labels _ q v h)
    · rw [if_neg hs]
      exact h

lemma expandPass_stuck (eps : K) (p : ℕ) (X : List (List K)) (c : ℤ)
    (labels : List (List K × ℤ)) (F : List (List K))
    (h : (expandPass eps p X c labels F).1 = labels) :
    (expandPass eps p X c labels F).2 = List.replicate X.length false := by
  have hlen : (F.foldl (passStep eps p X c)
      (labels, List.replicate X.length false)).1.length = labels.length := by
    rw [show (F.foldl (passStep eps p X c)
      (labels, List.replicate X.length false)).1
        = (expandPass eps p X c labels F).1 from rfl, h]
  have := foldl_passStep_stuck eps p X c F (labels, List.replicate X.length false) hlen
  calc (expandPass eps p X c labels F).2
      = (F.foldl (passStep eps p X c) (labels, List.replicate X.length false)).2 := rfl
    _ = List.replicate X.length false := by rw [this]

lemma expandPass_decrease (eps : K) (p : ℕ) (X : List (List K)) (c : ℤ)
    (labels : List (List K × ℤ)) (F : List Bool)
    (h : (expandPass eps p X c labels (select X F)).1 ≠ labels) :
    unlabeledCount X (expandPass eps p X c labels (select X F)).1 <
      unlabeledCount X labels := by
  rcases foldl_passStep_progress eps p X c (select X F)
      (labels, List.replicate X.length false) with heq | ⟨q, hqF, hq1, hq2⟩
  · exact absurd heq h
  · exact unlabeledCount_lt
      (fun q v hv => expandPass_labels_mono eps p X c labels _ q v hv)
      (mem_of_mem_select hqF) hq1 hq2

lemma expandLoop_succ (eps : K) (p : ℕ) (X : List (List K)) (c : ℤ)
    (fuel : ℕ) (labels : List (List K × ℤ)) (F : List Bool) :
    expandLoop eps p X c (fuel + 1) labels F =
      if 0 < (select X F).length then
        expandLoop eps p X c fuel (expandPass eps p X c labels (select X F)).1
          (expandPass eps p X c labels (select X F)).2
      else labels := by
  simp only [expandLoop]

lemma expandLoop_exit (eps : K) (p : ℕ) (X : List (List K)) (c : ℤ)
    (fuel : ℕ) (labels : List (List K × ℤ)) :
    expandLoop eps p X c (fuel + 1) labels (List.replicate X.length false)
      = labels := by
  rw [expandLoop_succ, select_replicate_false, if_neg]
  simp

lemma expandLoop_congr (eps : K) (p : ℕ) (X : List (List K)) (c : ℤ) :
    ∀ (n : ℕ) (labels : List (List K × ℤ)) (F : List Bool) (fuel1 fuel2 : ℕ),
      unlabeledCount X labels ≤ n → n + 2 ≤ fuel1 → n + 2 ≤ fuel2 →
      expandLoop eps p X c fuel1 labels F = expandLoop eps p X c fuel2 labels F := by
  intro n
  induction n with
  | zero =>
    intro labels F fuel1 fuel2 hn h1 h2
    obtain ⟨a, rfl⟩ : ∃ a, fuel1 = (a + 1) + 1 := ⟨fuel1 - 2, by omega⟩
    obtain ⟨b, rfl⟩ : ∃ b, fuel2 = (b + 1) + 1 := ⟨fuel2 - 2, by omega⟩
    rw [expandLoop_succ eps p X c (a + 1) labels F,
      expandLoop_succ eps p X c (b + 1) labels F]
    by_cases hs : 0 < (select X F).length
    · rw [if_pos hs, if_pos hs]
      by_cases hP : (expandPass eps p X c labels (select X F)).1 = labels
      · have hmask := expandPass_stuck eps p X c labels (select X F) hP
        rw [hP, hmask, expandLoop_exit, expandLoop_exit]
      · exfalso
        have := expandPass_decrease eps p X c labels F hP
        omega
    · rw [if_neg hs, if_neg hs]
  | succ n ih =>
    intro labels F fuel1 fuel2 hn h1 h2
    obtain ⟨a, rfl⟩ : ∃ a, fuel1 = a + 1 := ⟨fuel1 - 1, by omega⟩
    obtain ⟨b, rfl⟩ : ∃ b, fuel2 = b + 1 := ⟨fuel2 - 1, by omega⟩
    rw [expandLoop_succ eps p X c a labels F,
      expandLoop_succ eps p X c b labels F]
    by_cases hs : 0 < (select X F).length
    · rw [if_pos hs, if_pos hs]
      by_cases hP : (expandPass eps p X c labels (select X F)).1 = labels
      · have hmask := expandPass_stuck eps p X c labels (select X F) hP
        obtain ⟨a', rfl⟩ : ∃ a', a = a' + 1 := ⟨a - 1, by omega⟩
        obtain ⟨b', rfl⟩ : ∃ b', b = b' + 1 := ⟨b - 1, by omega⟩
        rw [hP, hmask, expandLoop_exit, expandLoop_exit]
      · have hdec := expandPass_decrease eps p X c labels F hP
        exact ih _ _ a b (by omega) (by omega) (by omega)
    · rw [if_neg hs, if_neg hs]

lemma expandLoop_fuel_sufficient (eps : K) (p : ℕ) (X : List (List K)) (c : ℤ)
    (labels : List (List K × ℤ)) (F : List Bool) (fuel : ℕ)
    (h : X.length + 2 ≤ fuel) :
    expandLoop eps p X c fuel labels F
      = expandLoop eps p X c (X.length + 2) labels F :=
  expandLoop_congr eps p X c X.length labels F fuel (X.length + 2)
    (unlabeledCount_le_length X labels) h le_rfl

/-! Lemmas about the outer `for p in X` scan. -/

lemma fitLoop_cons (eps : K) (p ms : ℕ) (X : List (List K)) (q : List K)
    (rest : List (List K)) (c : ℤ) (l : List (List K × ℤ)) :
    fitLoop eps p ms X (q :: rest) (c, l) =
      if (lookupLabel l q).isSome then fitLoop eps p ms X rest (c, l)
      else if ms ≤ (select X (maskOf eps p X q)).length then
        fitLoop eps p ms X rest
          (c + 1, expandLoop eps p X (c + 1) (X.length + 2) ((q, c + 1) :: l)
            (maskOf eps p X q))
      else fitLoop eps p ms X rest (c, (q, noise_label) :: l) := by
  simp only [fitLoop]

lemma fitLoop_labels_mono (eps : K) (p ms : ℕ) (X : List (List K)) :
    ∀ (L : List (List K)) (c : ℤ) (l : List (List K × ℤ)) (q : List K) (v : ℤ),
      lookupLabel l q = some v →
      lookupLabel (fitLoop eps p ms X L (c, l)).2 q = some v := by
  intro L
  induction L with
  | nil => intro c l q v h; simpa [fitLoop] using h
  | cons h t ih =>
    intro c l q v hv
    rw [fitLoop_cons]
    by_cases hs : (lookupLabel l h).isSome
    · rw [if_pos hs]
      exact ih c l q v hv
    · rw [if_neg hs]
      have hne : ¬ h = q := by
        intro e; rw [e, hv] at hs; simp at hs
      by_cases hc : ms ≤ (select X (maskOf eps p X h)).length
      · rw [if_pos hc]
        apply ih
        apply expandLoop_labels_mono
        rw [lookupLabel_cons_ne _ _ _ (by simpa using hne)]
        exact hv
      · rw [if_neg hc]
        apply ih
        rw [lookupLabel_cons_ne _ _ _ (by simpa using hne)]
        exact hv

lemma fitLoop_all_labeled (eps : K) (p ms : ℕ) (X : List (List K)) :
    ∀ (L : List (List K)) (c : ℤ) (l : List (List K × ℤ)) (q : List K), q ∈ L →
      (lookupLabel (fitLoop eps p ms X L (c, l)).2 q).isSome := by
  intro L
  induction L with
  | nil => intro c l q hq; cases hq
  | cons h t ih =>
    intro c l q hq
    rw [fitLoop_cons]
    by_cases hqh : h = q
    · subst hqh
      by_cases hs : (lookupLabel l h).isSome
      · rw [if_pos hs]
        obtain ⟨v, hv⟩ := Option.isSome_iff_exists.mp hs
        rw [fitLoop_labels_mono eps p ms X t c l h v hv]
        rfl
      · rw [if_neg hs]
        by_cases hc : ms ≤ (select X (maskOf eps p X h)).length
        · rw [if_pos hc]
          have hcons : lookupLabel
              (expandLoop eps p X (c + 1) (X.length + 2) ((h, c + 1) :: l)
                (maskOf eps p X h)) h = some (c + 1) :=
            expandLoop_labels_mono eps p X (c + 1) _ _ _ h (c + 1)
              (lookupLabel_cons_self _ _ _)
          rw [fitLoop_labels_mono eps p ms X t _ _ h (c + 1) hcons]
          rfl
        · rw [if_neg hc]
          rw [fitLoop_labels_mono eps p ms X t _ _ h noise_label
            (lookupLabel_cons_self _ _ _)]
          rfl
    · have hqt : q ∈ t := by
        rcases List.mem_cons.mp hq with he | ht
        · exact absurd he.symm hqh
        · exact ht
      by_cases hs : (lookupLabel l h).isSome
      · rw [if_pos hs]; exact ih c l q hqt
      · rw [if_neg hs]
        by_cases hc : ms ≤ (select X (maskOf eps p X h)).length
        · rw [if_pos hc]; exact ih _ _ q hqt
        · rw [if_neg hc]; exact ih _ _ q hqt

lemma fitLoop_skip_all (eps : K) (p ms : ℕ) (X : List (List K)) :
    ∀ (L : List (List K)) (c : ℤ) (l : List (List K × ℤ)),
      (∀ q ∈ L, (lookupLabel l q).isSome) →
      fitLoop eps p ms X L (c, l) = (c, l) := by
  intro L
  induction L with
  | nil => intro c l _; rfl
  | cons h t ih =>
    intro c l hall
    rw [fitLoop_cons, if_pos (hall h (List.mem_cons_self _ _))]
    exact ih c l (fun q hq => hall q (List.mem_cons_of_mem _ hq))

/-! The range invariant for dictionary values: every stored label is the
noise value `-1` or a cluster id in `[0, c]`. -/

lemma LabelsOk_mono {c c' : ℤ} (hcc : c ≤ c') {l : List (List K × ℤ)}
    (h : LabelsOk c l) : LabelsOk c' l := by
  intro pr hpr
  rcases h pr hpr with h1 | ⟨h2, h3⟩
  · exact Or.inl h1
  · exact Or.inr ⟨h2, le_trans h3 hcc⟩

lemma foldl_passStep_ok (eps : K) (p : ℕ) (X : List (List K)) (c : ℤ)
    (hc : 0 ≤ c) (L : List (List K)) :
    ∀ (acc : List (List K × ℤ) × List Bool), LabelsOk c acc.1 →
      LabelsOk c (L.foldl (passStep eps p X c) acc).1 := by
  induction L with
  | nil => intro acc h; exact h
  | cons h t ih =>
    intro acc hacc
    rw [List.foldl_cons]
    apply ih
    cases hn : lookupLabel acc.1 h with
    | none =>
      simp only [passStep, hn, Option.isNone_none, if_true]
      intro pr hpr
      rcases List.mem_cons.mp hpr with rfl | hmem
      · exact Or.inr ⟨hc, le_rfl⟩
      · exact hacc pr hmem
    | some w =>
      simpa [passStep, hn] using hacc

lemma expandLoop_ok (eps : K) (p : ℕ) (X : List (List K)) (c : ℤ)
    (hc : 0 ≤ c) :
    ∀ (fuel : ℕ) (labels : List (List K × ℤ)) (F : List Bool),
      LabelsOk c labels → LabelsOk c (expandLoop eps p X c fuel labels F) := by
  intro fuel
  induction fuel with
  | zero => intro labels F h; simpa [expandLoop] using h
  | succ n ih =>
    intro labels F h
    rw [expandLoop_succ]
    by_cases hs : 0 < (select X F).length
    · rw [if_pos hs]
      exact ih _ _ (foldl_passStep_ok eps p X c hc _ _ h)
    · rw [if_neg hs]
      exact h

lemma fitLoop_ok (eps : K) (p ms : ℕ) (X : List (List K)) :
    ∀ (L : List (List K)) (c : ℤ) (l : List (List K × ℤ)), -1 ≤ c →
      LabelsOk c l →
      c ≤ (fitLoop eps p ms X L (c, l)).1 ∧
      -1 ≤ (fitLoop eps p ms X L (c, l)).1 ∧
      LabelsOk (fitLoop eps p ms X L (c, l)).1 (fitLoop eps p ms X L (c, l)).2 := by
  intro L
  induction L with
  | nil =>
    intro c l hc hok
    exact ⟨le_refl c, hc, hok⟩
  | cons h t ih =>
    intro c l hc hok
    rw [fitLoop_cons]
    by_cases hs : (lookupLabel l h).isSome
    · rw [if_pos hs]
      exact ih c l hc hok
    · rw [if_neg hs]
      by_cases hcore : ms ≤ (select X (maskOf eps p X h)).length
      · rw [if_pos hcore]
        have hok1 : LabelsOk (c + 1) ((h, c + 1) :: l) := by
          intro pr hpr
          rcases List.mem_cons.mp hpr with rfl | hmem
          · exact Or.inr ⟨by omega, le_refl _⟩
          · exact LabelsOk_mono (by omega) hok pr hmem
        have hok2 := expandLoop_ok eps p X (c + 1) (by omega) (X.length + 2)
          ((h, c + 1) :: l) (maskOf eps p X h) hok1
        obtain ⟨i1, i2, i3⟩ := ih (c + 1) _ (by omega) hok2
        exact ⟨le_trans (by omega) i1, i2, i3⟩
      · rw [if_neg hcore]
        have hok1 : LabelsOk c ((h, noise_label) :: l) := by
          intro pr hpr
          rcases List.mem_cons.mp hpr with rfl | hmem
          · exact Or.inl rfl
          · exact hok pr hmem
        exact ih c _ hc hok1

lemma getD_map_lookupLabel (l : List (List K × ℤ)) (X : List (List K))
    (i : ℕ) (hi : i < X.length) :
    (X.map (lookupLabel l)).getD i none = lookupLabel l (X.getD i []) := by
  rw [List.getD_eq_getElem _ _ (by simpa using hi), List.getD_eq_getElem _ _ hi,
    List.getElem_map]

/-! The metric: relation between the embedded root-free neighbor test and the
source's comparison `(Σ|Δ^p|)^(1/p) < eps`, over `ℝ`. -/

lemma sumAbsPow_nonneg (x1 x2 : List K) (p : ℕ) : 0 ≤ sumAbsPow x1 x2 p := by
  apply List.sum_nonneg
  intro x hx
  simp only [List.mem_map] at hx
  obtain ⟨ab, _, rfl⟩ := hx
  exact abs_nonneg _

lemma mem_zip_self {x : List K} :
    ∀ {ab : K × K}, ab ∈ x.zip x → ab.1 = ab.2 := by
  induction x with
  | nil => intro ab h; cases h
  | cons a t ih =>
    intro ab h
    rcases List.mem_cons.mp h with rfl | hmem
    · rfl
    · exact ih hmem

lemma sumAbsPow_self (x : List K) (p : ℕ) (hp : 1 ≤ p) :
    sumAbsPow x x p = 0 := by
  apply List.sum_eq_zero
  intro v hv
  simp only [List.mem_map] at hv
  obtain ⟨ab, hab, rfl⟩ := hv
  rw [mem_zip_self hab]
  rw [sub_self, zero_pow (by omega : p ≠ 0), abs_zero]

lemma rpow_root_lt_iff {a e : ℝ} (ha : 0 ≤ a) (he : 0 < e) {p : ℕ}
    (hp : 1 ≤ p) :
    a ^ ((1 : ℝ) / (p : ℝ)) < e ↔ a < e ^ p := by
  have hp0 : (0 : ℝ) < (p : ℝ) := by
    exact_mod_cast Nat.lt_of_lt_of_le Nat.zero_lt_one hp
  rw [← Real.rpow_natCast e p]
  constructor
  · intro h
    have h2 := Real.rpow_lt_rpow (Real.rpow_nonneg ha _) h hp0
    rwa [← Real.rpow_mul ha, one_div, inv_mul_cancel₀ (ne_of_gt hp0),
      Real.rpow_one] at h2
  · intro h
    have h2 := Real.rpow_lt_rpow ha h (by positivity : (0 : ℝ) < (1 : ℝ) / (p : ℝ))
    rwa [← Real.rpow_mul he.le, mul_one_div, div_self (ne_of_gt hp0),
      Real.rpow_one] at h2

lemma metric_nonneg (x1 x2 : List ℝ) (p : ℕ) : 0 ≤ metric x1 x2 p := by
  unfold metric
  exact Real.rpow_nonneg (sumAbsPow_nonneg x1 x2 p) _

/-- The embedded neighbor test agrees with the source's comparison
`self._metric(x1, x2, p) < eps` for every metric order `p ≥ 1` and every
`eps` (for `eps ≤ 0` both sides are false, the metric being nonnegative). -/
lemma metric_lt_iff (x1 x2 : List ℝ) (p : ℕ) (hp : 1 ≤ p) (e : ℝ) :
    metric x1 x2 p < e ↔ isNeighbor e p x1 x2 = true := by
  by_cases he : 0 < e
  · unfold metric isNeighbor
    rw [decide_eq_true he]
    simp only [Bool.true_and, decide_eq_true_eq]
    exact rpow_root_lt_iff (sumAbsPow_nonneg x1 x2 p) he hp
  · have hm := metric_nonneg x1 x2 p
    unfold isNeighbor
    rw [decide_eq_false he]
    simp only [Bool.false_and]
    constructor
    · intro h
      exact absurd (lt_of_le_of_lt hm h) he
    · intro h
      cases h

lemma maskOf_getD (e : K) (p : ℕ) (X : List (List K)) (q : List K) (j : ℕ)
    (hj : j < X.length) :
    (maskOf e p X q).getD j false = isNeighbor e p (X.getD j []) q := by
  unfold maskOf
  rw [List.getD_eq_getElem _ _ (by simpa using hj), List.getD_eq_getElem _ _ hj,
    List.getElem_map]

lemma isNeighbor_nonpos (e : K) (he : e ≤ 0) (p : ℕ) (x1 x2 : List K) :
    isNeighbor e p x1 x2 = false := by
  unfold isNeighbor
  rw [decide_eq_false (not_lt.mpr he)]
  rfl

lemma maskOf_nonpos (e : K) (he : e ≤ 0) (p : ℕ) (q : List K) :
    ∀ X : List (List K), maskOf e p X q = List.replicate X.length false := by
  intro X
  induction X with
  | nil => rfl
  | cons x xs ih =>
    show isNeighbor e p x q :: maskOf e p xs q = _
    rw [isNeighbor_nonpos e he, ih, List.length_cons, List.replicate_succ]

lemma fitLoop_nonpos (e : K) (p ms : ℕ) (X : List (List K)) (he : e ≤ 0)
    (hm : 1 ≤ ms) :
    ∀ (L : List (List K)) (c : ℤ) (l : List (List K × ℤ)),
      (fitLoop e p ms X L (c, l)).1 = c ∧
      (∀ pr ∈ (fitLoop e p ms X L (c, l)).2, pr ∈ l ∨ pr.2 = -1) := by
  intro L
  induction L with
  | nil => intro c l; exact ⟨rfl, fun pr h => Or.inl h⟩
  | cons h t ih =>
    intro c l
    rw [fitLoop_cons]
    by_cases hs : (lookupLabel l h).isSome
    · rw [if_pos hs]
      exact ih c l
    · rw [if_neg hs]
      rw [maskOf_nonpos e he p h X, select_replicate_false]
      rw [if_neg (by simpa using (by omega : ¬ ms ≤ 0))]
      obtain ⟨i1, i2⟩ := ih c ((h, noise_label) :: l)
      refine ⟨i1, fun pr hpr => ?_⟩
      rcases i2 pr hpr with hmem | hval
      · rcases List.mem_cons.mp hmem with rfl | hmem2
        · right; rfl
        · left; exact hmem2
      · right; exact hval

/-! The claim theorems. -/

/-- Claim C1, amended.  During `fit`'s cluster expansion, every point `q` of
the frontier that is newly assigned to the current cluster has its whole
neighborhood unioned into the next frontier, whether or not `q` is a core
point: the loop body runs `new_neighbors |= self._metric(X, q, self.p) <
self.eps` for every newly labeled `q` with no `min_samples` test, so the
neighborhood of a non-core (border) point also extends the cluster. -/
theorem expansion_unions_every_new_point (eps : K) (p : ℕ) (X : List (List K))
    (c : ℤ) (labels : List (List K × ℤ)) (F : List (List K)) (q : List K)
    (hq : q ∈ F) (hnew : lookupLabel labels q = none) :
    lookupLabel (expandPass eps p X c labels F).1 q = some c ∧
    ∀ j, (maskOf eps p X q).getD j false = true →
      (expandPass eps p X c labels F).2.getD j false = true :=
  foldl_passStep_new_label eps p X c F (labels, List.replicate X.length false)
    q hq hnew (by simp)

/-- Witness for the amended claim C1 at a concrete input. -/
theorem expansion_unions_every_new_point_witness :
    lookupLabel (expandPass (2 : ℤ) 1 [[0], [1]] 0 [] [[0]]).1 [0] = some 0 ∧
    ∀ j, (maskOf (2 : ℤ) 1 [[0], [1]] [0]).getD j false = true →
      (expandPass (2 : ℤ) 1 [[0], [1]] 0 [] [[0]]).2.getD j false = true :=
  expansion_unions_every_new_point 2 1 [[0], [1]] 0 [] [[0]] [0]
    (by decide) (by decide)

/-- Counterexample to claim C1 as stated.  Points
`[[0,0],[0,1],[0,-1],[1,0],[2,0]]`, `eps = 2`, `min_points = 4`, order 1:
after `fit`, the point `[2,0]` (row 4) carries cluster label 0 although it is
not a core point (its neighborhood has 2 < 4 rows), and it is within `eps`
of no core point of the run — it is reached only through the neighborhood of
the non-core border point `[1,0]` (whose neighborhood has 3 < 4 rows).
Under the claim, the cluster would never have been extended through `[1,0]`
and row 4 would have ended as Noise. -/
theorem expansion_uses_border_neighborhood_cex :
    (fit (mkModel (2 : ℤ) 4 1)
        [[0, 0], [0, 1], [0, -1], [1, 0], [2, 0]]).labels_.getD 4 none
      = some 0 ∧
    (select [[0, 0], [0, 1], [0, -1], [1, 0], [2, 0]]
      (maskOf (2 : ℤ) 1 [[0, 0], [0, 1], [0, -1], [1, 0], [2, 0]]
        [1, 0])).length = 3 ∧
    (select [[0, 0], [0, 1], [0, -1], [1, 0], [2, 0]]
      (maskOf (2 : ℤ) 1 [[0, 0], [0, 1], [0, -1], [1, 0], [2, 0]]
        [2, 0])).length = 2 ∧
    ∀ j, j < 5 →
      4 ≤ (select [[0, 0], [0, 1], [0, -1], [1, 0], [2, 0]]
        (maskOf (2 : ℤ) 1 [[0, 0], [0, 1], [0, -1], [1, 0], [2, 0]]
          (([[0, 0], [0, 1], [0, -1], [1, 0], [2, 0]] :
            List (List ℤ)).getD j []))).length →
      isNeighbor (2 : ℤ) 1 [2, 0]
        (([[0, 0], [0, 1], [0, -1], [1, 0], [2, 0]] :
          List (List ℤ)).getD j []) = false := by
  decide

/-- Claim C2: evaluation of the code at the failing input.  With points
`[[0],[2],[4]]`, `eps = 3`, `min_points = 3`, order 1, the point `[2]` is a
core point (3 ≥ 3 rows in its neighborhood) and `[0]` lies strictly within
`eps` of it, yet after `fit` the row of `[0]` is labeled Noise (`-1`) while
`[2]` carries cluster 0: the noise-reclaim condition of the source compares
the hash `self._k(q)` with `-1` instead of the stored label
`self._labels[self._k(q)]`, so a point once labeled Noise is never relabeled
when a later core point's expansion reaches it. -/
theorem noise_not_reclaimed_run :
    (fit (mkModel (3 : ℤ) 3 1) [[0], [2], [4]]).labels_
      = [some (-1), some 0, some 0] ∧
    3 ≤ (select [[0], [2], [4]]
      (maskOf (3 : ℤ) 1 [[0], [2], [4]] [2])).length ∧
    isNeighbor (3 : ℤ) 1 [0] [2] = true ∧
    (fit (mkModel (3 : ℤ) 3 1) [[0], [2], [4]]).n_clusters_ = 1 := by
  decide

/-- Claim C3, amended: after a completed `fit` call on a freshly constructed
model with a valid configuration, every row index `i < N` holds exactly one
label, which is either Noise (`-1`) or a cluster id `k` with
`0 ≤ k < n_clusters_`, and no row is unlabeled.  (On a model that was fitted
before, the source does not reset the `_labels` dictionary, and stale cluster
ids `≥ n_clusters_` can survive — see the counterexample.) -/
theorem fit_fresh_labels_complete (e : K) (mi p : ℕ) (X : List (List K))
    (he : 0 < e) (hm : 1 ≤ mi) (hp : 1 ≤ p) (i : ℕ) (hi : i < X.length) :
    ∃ v : ℤ, (fit (mkModel e mi p) X).labels_.getD i none = some v ∧
      (v = -1 ∨ (0 ≤ v ∧ v < (fit (mkModel e mi p) X).n_clusters_)) := by
  have hmem : X.getD i [] ∈ X := by
    rw [List.getD_eq_getElem _ _ hi]
    exact List.getElem_mem _
  obtain ⟨v, hv⟩ := Option.isSome_iff_exists.mp
    (fitLoop_all_labeled e p mi X X (-1) [] _ hmem)
  have hok := fitLoop_ok e p mi X X (-1) [] (by omega)
    (fun pr hpr => absurd hpr (List.not_mem_nil pr))
  refine ⟨v, ?_, ?_⟩
  · show (X.map (lookupLabel (fitLoop e p mi X X (-1, [])).2)).getD i none
      = some v
    rw [getD_map_lookupLabel _ X i hi]
    exact hv
  · rcases hok.2.2 _ (lookupLabel_mem hv) with h1 | ⟨h2, h3⟩
    · exact Or.inl h1
    · refine Or.inr ⟨h2, ?_⟩
      show v < (fitLoop e p mi X X (-1, [])).1 + 1
      omega

/-- Witness for the amended claim C3 at a concrete input. -/
theorem fit_fresh_labels_complete_witness :
    ∃ v : ℤ, (fit (mkModel (1 : ℤ) 1 1) [[0]]).labels_.getD 0 none = some v ∧
      (v = -1 ∨ (0 ≤ v ∧ v < (fit (mkModel (1 : ℤ) 1 1) [[0]]).n_clusters_)) :=
  fit_fresh_labels_complete 1 1 1 [[0]] (by decide) (by decide) (by decide) 0
    (by decide)

/-- Counterexample to claim C3 as stated ("after every completed fit call"):
fit a fresh model on `[[0],[5]]` (`eps = 1`, `min_points = 1`, order 1),
giving clusters 0 and 1, then fit the same estimator again on `[[5]]`.  The
second fit completes, but the row of `[5]` keeps the stale label 1 while
`n_clusters_` is recomputed as 0, so its label is neither Noise nor a cluster
id below the reported cluster count. -/
theorem fit_refit_stale_label_cex :
    (fit (fit (mkModel (1 : ℤ) 1 1) [[0], [5]]) [[5]]).labels_.getD 0 none
      = some 1 ∧
    (fit (fit (mkModel (1 : ℤ) 1 1) [[0], [5]]) [[5]]).n_clusters_ = 0 ∧
    ¬((1 : ℤ) = -1 ∨ ((0 : ℤ) ≤ 1 ∧ (1 : ℤ) <
      (fit (fit (mkModel (1 : ℤ) 1 1) [[0], [5]]) [[5]]).n_clusters_)) := by
  decide

/-- Claim C4: the cluster-expansion loop terminates.  Its pass never removes
a label (first conjunct); each pass either labels some previously unlabeled
point — strictly decreasing the number of unlabeled distinct rows — or
leaves the dictionary unchanged, in which case the next frontier is the
all-false mask and the loop exits (second and third conjuncts); consequently
the fuel `X.length + 2` that `fit` hands to `expandLoop` is enough: any
larger fuel computes the same dictionary (fourth conjunct). -/
theorem fit_expansion_terminates (eps : K) (p : ℕ) (X : List (List K))
    (c : ℤ) (labels : List (List K × ℤ)) (F : List Bool) (fuel : ℕ)
    (hf : X.length + 2 ≤ fuel) :
    (∀ q v, lookupLabel labels q = some v →
        lookupLabel (expandPass eps p X c labels (select X F)).1 q = some v) ∧
    ((expandPass eps p X c labels (select X F)).1 ≠ labels →
        unlabeledCount X (expandPass eps p X c labels (select X F)).1 <
          unlabeledCount X labels) ∧
    ((expandPass eps p X c labels (select X F)).1 = labels →
        (expandPass eps p X c labels (select X F)).2
          = List.replicate X.length false) ∧
    expandLoop eps p X c fuel labels F
      = expandLoop eps p X c (X.length + 2) labels F := by
  refine ⟨?_, ?_, ?_, ?_⟩
  · intro q v hv
    exact expandPass_labels_mono eps p X c labels _ q v hv
  · intro h
    exact expandPass_decrease eps p X c labels F h
  · intro h
    exact expandPass_stuck eps p X c labels _ h
  · exact expandLoop_fuel_sufficient eps p X c labels F fuel hf

/-- Witness for claim C4 at a concrete input. -/
theorem fit_expansion_terminates_witness :
    (∀ q v, lookupLabel ([] : List (List ℤ × ℤ)) q = some v →
        lookupLabel (expandPass (1 : ℤ) 1 [[0]] 0 []
          (select [[0]] [true])).1 q = some v) ∧
    ((expandPass (1 : ℤ) 1 [[0]] 0 [] (select [[0]] [true])).1 ≠ [] →
        unlabeledCount ([[0]] : List (List ℤ))
          (expandPass (1 : ℤ) 1 [[0]] 0 [] (select [[0]] [true])).1 <
          unlabeledCount ([[0]] : List (List ℤ)) []) ∧
    ((expandPass (1 : ℤ) 1 [[0]] 0 [] (select [[0]] [true])).1 = [] →
        (expandPass (1 : ℤ) 1 [[0]] 0 [] (select [[0]] [true])).2
          = List.replicate 1 false) ∧
    expandLoop (1 : ℤ) 1 [[0]] 0 3 [] [true]
      = expandLoop (1 : ℤ) 1 [[0]] 0 (1 + 2) [] [true] :=
  fit_expansion_terminates 1 1 [[0]] 0 [] [true] 3 (by decide)

/-- Claim C5, amended: a second `fit` with the identical point set leaves the
`_labels` dictionary — and hence the partition and the per-row labels —
unchanged (the fit state is *not* replaced wholesale: the dictionary is
carried over and every point is skipped as already classified), but the
recomputed `n_clusters_` is 0, not the first fit's cluster count. -/
theorem fit_refit_same_partition (e : K) (mi p : ℕ) (X : List (List K)) :
    (fit (fit (mkModel e mi p) X) X).labels = (fit (mkModel e mi p) X).labels ∧
    (fit (fit (mkModel e mi p) X) X).labels_
      = (fit (mkModel e mi p) X).labels_ ∧
    (fit (fit (mkModel e mi p) X) X).n_clusters_ = 0 := by
  have hall : ∀ q ∈ X,
      (lookupLabel (fit (mkModel e mi p) X).labels q).isSome := by
    intro q hq
    exact fitLoop_all_labeled e p mi X X (-1) [] q hq
  have hskip := fitLoop_skip_all e p mi X X (-1)
    (fit (mkModel e mi p) X).labels hall
  refine ⟨?_, ?_, ?_⟩
  · show (fitLoop e p mi X X (-1, (fit (mkModel e mi p) X).labels)).2
      = (fit (mkModel e mi p) X).labels
    rw [hskip]
  · show X.map (lookupLabel
        (fitLoop e p mi X X (-1, (fit (mkModel e mi p) X).labels)).2)
      = (fit (mkModel e mi p) X).labels_
    rw [hskip]
    rfl
  · show (fitLoop e p mi X X (-1, (fit (mkModel e mi p) X).labels)).1 + 1 = 0
    rw [hskip]
    show (-1 : ℤ) + 1 = 0
    decide

/-- Counterexample to claim C5 as stated: fitting `[[0]]` twice (`eps = 1`,
`min_points = 1`, order 1) reports `n_clusters_ = 1` after the first fit but
`n_clusters_ = 0` after the identical second fit, because the dictionary is
not reset and no new cluster is ever seeded. -/
theorem fit_refit_cluster_count_cex :
    (fit (mkModel (1 : ℤ) 1 1) [[0]]).n_clusters_ = 1 ∧
    (fit (fit (mkModel (1 : ℤ) 1 1) [[0]]) [[0]]).n_clusters_ = 0 := by
  decide

/-- Claim C6, amended: `fit` performs no configuration validation at all.
With `epsilon ≤ 0` (and `min_points ≥ 1`) it does not fail: every neighbor
mask is empty, so `fit` runs to completion, marks the model fitted, labels
every row Noise (`-1`) and reports `n_clusters_ = 0`. -/
theorem fit_nonpositive_eps_all_noise (e : K) (mi p : ℕ) (X : List (List K))
    (he : e ≤ 0) (hm : 1 ≤ mi) :
    (fit (mkModel e mi p) X).is_fit = true ∧
    (fit (mkModel e mi p) X).n_clusters_ = 0 ∧
    ∀ i, i < X.length →
      (fit (mkModel e mi p) X).labels_.getD i none = some (-1) := by
  refine ⟨rfl, ?_, ?_⟩
  · show (fitLoop e p mi X X (-1, [])).1 + 1 = 0
    rw [(fitLoop_nonpos e p mi X he hm X (-1) []).1]
    show (-1 : ℤ) + 1 = 0
    decide
  · intro i hi
    show (X.map (lookupLabel (fitLoop e p mi X X (-1, [])).2)).getD i none
      = some (-1)
    rw [getD_map_lookupLabel _ X i hi]
    have hmem : X.getD i [] ∈ X := by
      rw [List.getD_eq_getElem _ _ hi]
      exact List.getElem_mem _
    obtain ⟨v, hv⟩ := Option.isSome_iff_exists.mp
      (fitLoop_all_labeled e p mi X X (-1) [] _ hmem)
    rcases (fitLoop_nonpos e p mi X he hm X (-1) []).2 _
        (lookupLabel_mem hv) with hmem2 | hval
    · exact absurd hmem2 (List.not_mem_nil _)
    · rw [hv]
      exact congrArg some hval

/-- Witness for the amended claim C6 at a concrete input. -/
theorem fit_nonpositive_eps_all_noise_witness :
    (fit (mkModel (0 : ℤ) 1 1) [[0]]).is_fit = true ∧
    (fit (mkModel (0 : ℤ) 1 1) [[0]]).n_clusters_ = 0 ∧
    ∀ i, i < ([[0]] : List (List ℤ)).length →
      (fit (mkModel (0 : ℤ) 1 1) [[0]]).labels_.getD i none = some (-1) :=
  fit_nonpositive_eps_all_noise 0 1 1 [[0]] (by decide) (by decide)

/-- Counterexample to claim C6 as stated: a `fit` with `epsilon = 0` does not
fail with `InvalidConfiguration` before any computation — the source has no
validation — but completes, marks the model fitted and writes a Noise label
for the point. -/
theorem fit_eps_zero_no_failure_cex :
    (fit (mkModel (0 : ℤ) 1 1) [[0]]).is_fit = true ∧
    (fit (mkModel (0 : ℤ) 1 1) [[0]]).labels = [([0], -1)] ∧
    (fit (mkModel (0 : ℤ) 1 1) [[0]]).n_clusters_ = 0 := by
  decide

/-- Claim C7: for equal-dimension points and integer order `p ≥ 1`, the
source's metric `(Σ|(p_i − q_i)^order|)^(1/order)` equals the spec's
`(Σ|p_i − q_i|^order)^(1/order)`; the neighbor mask holds exactly the rows at
metric strictly below `epsilon`; the self-distance is 0 and (for
`epsilon > 0`) every point is its own neighbor. -/
theorem metric_and_neighborhood_spec (x1 x2 : List ℝ) (p : ℕ) (e : ℝ)
    (hp : 1 ≤ p) (he : 0 < e) (hd : x1.length = x2.length) :
    metric x1 x2 p
        = (((x1.zip x2).map (fun ab => |ab.1 - ab.2| ^ p)).sum)
            ^ ((1 : ℝ) / (p : ℝ)) ∧
    (isNeighbor e p x1 x2 = true ↔ metric x1 x2 p < e) ∧
    metric x1 x1 p = 0 ∧
    isNeighbor e p x1 x1 = true ∧
    ∀ (X : List (List ℝ)) (j : ℕ), j < X.length →
      ((maskOf e p X x1).getD j false = true ↔ metric (X.getD j []) x1 p < e) := by
  have hp0 : (p : ℝ) ≠ 0 := Nat.cast_ne_zero.mpr (by omega)
  have hself : metric x1 x1 p = 0 := by
    unfold metric
    rw [sumAbsPow_self x1 p hp]
    exact Real.zero_rpow (one_div_ne_zero hp0)
  refine ⟨?_, (metric_lt_iff x1 x2 p hp e).symm, hself, ?_, ?_⟩
  · unfold metric sumAbsPow
    congr 2
    apply List.map_congr_left
    intro ab _
    rw [abs_pow]
  · rw [← metric_lt_iff x1 x1 p hp e, hself]
    exact he
  · intro X j hj
    rw [maskOf_getD e p X x1 j hj]
    exact (metric_lt_iff (X.getD j []) x1 p hp e).symm

/-- Witness for claim C7 at a concrete input. -/
theorem metric_and_neighborhood_spec_witness :
    metric [0] [1] 1
        = ((([0].zip [1]).map (fun ab => |ab.1 - ab.2| ^ 1)).sum)
            ^ ((1 : ℝ) / ((1 : ℕ) : ℝ)) ∧
    (isNeighbor (1 : ℝ) 1 [0] [1] = true ↔ metric [0] [1] 1 < 1) ∧
    metric [0] [0] 1 = 0 ∧
    isNeighbor (1 : ℝ) 1 [0] [0] = true ∧
    ∀ (X : List (List ℝ)) (j : ℕ), j < X.length →
      ((maskOf (1 : ℝ) 1 X [0]).getD j false = true ↔
        metric (X.getD j []) [0] 1 < 1) :=
  metric_and_neighborhood_spec [0] [1] 1 1 (le_refl 1) one_pos rfl

/-- Claim C8, amended: the `_labels` dictionary is keyed by the point's
value, so duplicate-valued rows share one entry rather than getting one slot
per row index (see the counterexample); nonetheless `predict` returns one
label per query row, aligned to query order, and `fit_predict` returns one
label per input row. -/
theorem predict_one_label_per_row (m : Model K) (Q : List (List K))
    (hfit : m.is_fit = true)
    (hq : ∀ q ∈ Q, (lookupLabel m.labels q).isSome) :
    (∃ ls : List ℤ, predict m Q = Except.ok ls ∧ ls.length = Q.length ∧
      ∀ i, i < Q.length →
        some (ls.getD i 0) = lookupLabel m.labels (Q.getD i [])) ∧
    ∀ Y : List (List K), (fit_predict m Y).length = Y.length := by
  constructor
  · have hlist : ∀ L : List (List K),
        (∀ q ∈ L, (lookupLabel m.labels q).isSome) →
        ∃ ls : List ℤ, predictList m.labels L = Except.ok ls ∧
          ls.length = L.length ∧
          ∀ i, i < L.length →
            some (ls.getD i 0) = lookupLabel m.labels (L.getD i []) := by
      intro L
      induction L with
      | nil =>
        intro _
        exact ⟨[], rfl, rfl, fun i hi => absurd hi (by simp)⟩
      | cons h t ih =>
        intro hall
        obtain ⟨v, hv⟩ := Option.isSome_iff_exists.mp
          (hall h (List.mem_cons_self _ _))
        obtain ⟨ls, h1, h2, h3⟩ :=
          ih (fun q hqt => hall q (List.mem_cons_of_mem _ hqt))
        refine ⟨v :: ls, ?_, by simpa using h2, ?_⟩
        · rw [predictList, hv, h1]
        · intro i hi
          cases i with
          | zero => simpa using hv.symm
          | succ n =>
            have := h3 n (by simpa using hi)
            simpa using this
    obtain ⟨ls, h1, h2, h3⟩ := hlist Q hq
    refine ⟨ls, ?_, h2, h3⟩
    unfold predict
    rw [hfit]
    simpa using h1
  · intro Y
    show (Y.map (lookupLabel
      (fitLoop m.eps m.p m.min_samples Y Y (-1, m.labels)).2)).length = Y.length
    exact List.length_map _ _

/-- Witness for the amended claim C8 at a concrete input. -/
theorem predict_one_label_per_row_witness :
    (∃ ls : List ℤ,
      predict (fit (mkModel (1 : ℤ) 1 1) [[0]]) [[0]] = Except.ok ls ∧
      ls.length = ([[0]] : List (List ℤ)).length ∧
      ∀ i, i < ([[0]] : List (List ℤ)).length →
        some (ls.getD i 0) = lookupLabel (fit (mkModel (1 : ℤ) 1 1) [[0]]).labels
          (([[0]] : List (List ℤ)).getD i [])) ∧
    ∀ Y : List (List ℤ),
      (fit_predict (fit (mkModel (1 : ℤ) 1 1) [[0]]) Y).length = Y.length :=
  predict_one_label_per_row (fit (mkModel (1 : ℤ) 1 1) [[0]]) [[0]]
    (by decide) (by decide)

/-- Counterexample to claim C8 as stated: fitting the two equal-valued rows
`[[0],[0]]` leaves a single entry in the label table — the rows are collapsed
into one slot keyed by value, not tracked independently per index — although
the per-row outputs still have one label per row. -/
theorem labels_collapse_duplicates_cex :
    (fit (mkModel (1 : ℤ) 1 1) [[0], [0]]).labels.length = 1 ∧
    ([[0], [0]] : List (List ℤ)).length = 2 ∧
    (fit (mkModel (1 : ℤ) 1 1) [[0], [0]]).labels_ = [some 0, some 0] := by
  decide

/-- Claim C9: when the final labeling has fewer than two distinct non-noise
cluster labels, `fit` completes (it does not propagate the scorer's failure:
the source wraps the call in `try/except ValueError` and stores `np.nan`,
modelled as `none`), records the quality score as NaN, and `score()` then
returns that NaN. -/
theorem fit_degenerate_score_nan (m : Model K) (X : List (List K))
    (h : (distinctNonNoise ((fit m X).labels_)).length < 2) :
    (fit m X).is_fit = true ∧ (fit m X).silhouette_ = none ∧
    score (fit m X) = Except.ok (none : Option K) := by
  have hsil : (fit m X).silhouette_ = none := by
    show silhouetteModel ((fit m X).labels_) = none
    unfold silhouetteModel
    rw [if_neg (by omega)]
  refine ⟨rfl, hsil, ?_⟩
  unfold score
  rw [if_pos (show (fit m X).is_fit = true from rfl), hsil]

/-- Witness for claim C9 at a concrete input: two isolated points with
`min_points = 2` both end as Noise, `n_clusters_` is 0 and the score is
NaN. -/
theorem fit_degenerate_score_nan_witness :
    (distinctNonNoise ((fit (mkModel (1 : ℤ) 2 1) [[0], [10]]).labels_)).length
      < 2 ∧
    ((fit (mkModel (1 : ℤ) 2 1) [[0], [10]]).is_fit = true ∧
      (fit (mkModel (1 : ℤ) 2 1) [[0], [10]]).silhouette_ = none ∧
      score (fit (mkModel (1 : ℤ) 2 1) [[0], [10]])
        = Except.ok (none : Option ℤ)) ∧
    (fit (mkModel (1 : ℤ) 2 1) [[0], [10]]).n_clusters_ = 0 ∧
    (fit (mkModel (1 : ℤ) 2 1) [[0], [10]]).labels_
      = [some (-1), some (-1)] :=
  ⟨by decide,
    fit_degenerate_score_nan (mkModel (1 : ℤ) 2 1) [[0], [10]] (by decide),
    by decide, by decide⟩

/-- Claim C10: fitting an empty point set succeeds: the model is marked
fitted, `n_clusters_ = 0`, the per-row label array is empty, the quality
score is NaN, and a subsequent `predict` on an empty query returns an empty
label array.  This holds for every starting model state. -/
theorem fit_empty_pointset (m : Model K) :
    (fit m []).is_fit = true ∧ (fit m []).n_clusters_ = 0 ∧
    (fit m []).labels_ = [] ∧ (fit m []).silhouette_ = none ∧
    predict (fit m []) [] = Except.ok ([] : List ℤ) := by
  refine ⟨rfl, ?_, rfl, rfl, rfl⟩
  show (-1 : ℤ) + 1 = 0
  decide

end DBSCAN

